import Mathlib

/-!
Verification of the expo server-route middleware matcher.

The repository contains the middleware gate `shouldRunMiddleware` together with its
pattern engine `matchesPattern` / `globToRegex`, in two divergent variants:

* variant A: the TypeScript source whose `globToRegex` translates the whole glob by chained
  string replacements (`**` to `.*` via a placeholder, `*` to a non-slash run) and
  special-cases a trailing `/*`;
* variant B: the TypeScript/compiled source whose `globToRegex` is segment based: it drops
  the pattern's first character, splits on `/` and transforms every segment separately.

Both variants are embedded below.  The regular expressions the code builds are represented
by the inductive type `RE`; `reMatch` is an anchored matcher for `RE` (the code anchors every
produced regular expression with `^...$`), implemented with Brzozowski derivatives and
characterised by the `*_reMatch_iff` lemmas.
-/

namespace Expo

/-! ## Regular expressions produced by `globToRegex`

`RE` covers exactly the constructs occurring in the generated regular expressions:
literals (all escaped characters), `.` (`any`), `[^/]` (`nonSlash`), alternation
(used only through `RE.opt`, i.e. `(?:r)?`), concatenation and Kleene star. -/

inductive RE where
  | emp
  | eps
  | any
  | nonSlash
  | lit (c : Char)
  | alt (r s : RE)
  | seq (r s : RE)
  | star (r : RE)
deriving DecidableEq

/-- `(?:r)?` -/
def RE.opt (r : RE) : RE := .alt .eps r

/-- Does `r` accept the empty word? -/
def nullable : RE → Bool
  | .emp => false
  | .eps => true
  | .any => false
  | .nonSlash => false
  | .lit _ => false
  | .alt r s => nullable r || nullable s
  | .seq r s => nullable r && nullable s
  | .star _ => true

/-- Brzozowski derivative of `r` by the character `c`. -/
def deriv : RE → Char → RE
  | .emp, _ => .emp
  | .eps, _ => .emp
  | .any, _ => .eps
  | .nonSlash, c => if c = '/' then .emp else .eps
  | .lit a, c => if a = c then .eps else .emp
  | .alt r s, c => .alt (deriv r c) (deriv s c)
  | .seq r s, c => if nullable r then .alt (.seq (deriv r c) s) (deriv s c) else .seq (deriv r c) s
  | .star r, c => .seq (deriv r c) (.star r)

/-- Anchored match of the word `w` against `r` (the code wraps every generated pattern in
`^...$`, so `RegExp.test` is a full match). -/
def reMatch : RE → List Char → Bool
  | r, [] => nullable r
  | r, c :: cs => reMatch (deriv r c) cs

/-- `new RegExp(...).test(s)` for the anchored regular expressions built by the code. -/
def reTest (r : RE) (s : String) : Bool := reMatch r s.toList

theorem reMatch_cons (r : RE) (a : Char) (w : List Char) :
    reMatch r (a :: w) = reMatch (deriv r a) w := rfl

theorem emp_reMatch (w : List Char) : reMatch .emp w = false := by
  induction w with
  | nil => rfl
  | cons a w ih => rw [reMatch_cons]; exact ih

theorem eps_reMatch_iff (w : List Char) : reMatch .eps w = true ↔ w = [] := by
  cases w with
  | nil => simp [reMatch, nullable]
  | cons a w => rw [reMatch_cons]; simp [deriv, emp_reMatch]

theorem lit_reMatch_iff (c : Char) (w : List Char) : reMatch (.lit c) w = true ↔ w = [c] := by
  cases w with
  | nil => simp [reMatch, nullable]
  | cons a w =>
    rw [reMatch_cons]
    simp only [deriv]
    split
    · rename_i h
      subst h
      rw [eps_reMatch_iff]
      simp
    · rename_i h
      rw [emp_reMatch]
      constructor
      · intro hf
        exact absurd hf (by simp)
      · intro h2
        injection h2 with h3 h4
        exact absurd h3.symm h

theorem any_reMatch_iff (w : List Char) : reMatch .any w = true ↔ ∃ c, w = [c] := by
  cases w with
  | nil => simp [reMatch, nullable]
  | cons a w =>
    rw [reMatch_cons]
    simp only [deriv]
    rw [eps_reMatch_iff]
    constructor
    · rintro rfl; exact ⟨a, rfl⟩
    · rintro ⟨c, hc⟩
      injection hc with h1 h2

theorem nonSlash_reMatch_iff (w : List Char) :
    reMatch .nonSlash w = true ↔ ∃ c, c ≠ '/' ∧ w = [c] := by
  cases w with
  | nil => simp [reMatch, nullable]
  | cons a w =>
    rw [reMatch_cons]
    simp only [deriv]
    split
    · rename_i h
      subst h
      rw [emp_reMatch]
      constructor
      · intro hf
        exact absurd hf (by simp)
      · rintro ⟨c, hc, h2⟩
        injection h2 with h3 h4
        exact absurd h3.symm hc
    · rename_i h
      rw [eps_reMatch_iff]
      constructor
      · rintro rfl; exact ⟨a, fun hh => h hh, rfl⟩
      · rintro ⟨c, hc, h2⟩
        injection h2 with h3 h4

theorem alt_reMatch_iff (r s : RE) (w : List Char) :
    reMatch (.alt r s) w = true ↔ reMatch r w = true ∨ reMatch s w = true := by
  induction w generalizing r s with
  | nil => simp [reMatch, nullable]
  | cons a w ih =>
    rw [reMatch_cons, reMatch_cons r, reMatch_cons s]
    simp only [deriv]
    exact ih _ _

theorem seq_reMatch_iff (r s : RE) (w : List Char) :
    reMatch (.seq r s) w = true ↔
      ∃ t u, w = t ++ u ∧ reMatch r t = true ∧ reMatch s u = true := by
  induction w generalizing r s with
  | nil =>
    simp only [reMatch, nullable, Bool.and_eq_true]
    constructor
    · rintro ⟨h1, h2⟩
      exact ⟨[], [], rfl, h1, h2⟩
    · rintro ⟨t, u, h, h1, h2⟩
      obtain ⟨rfl, rfl⟩ := List.append_eq_nil.mp h.symm
      exact ⟨h1, h2⟩
  | cons a w ih =>
    rw [reMatch_cons]
    simp only [deriv]
    split
    · rename_i hnull
      rw [alt_reMatch_iff, ih]
      constructor
      · rintro (⟨t, u, h, h1, h2⟩ | h)
        · exact ⟨a :: t, u, by rw [h, List.cons_append], h1, h2⟩
        · exact ⟨[], a :: w, rfl, hnull, h⟩
      · rintro ⟨t, u, h, h1, h2⟩
        cases t with
        | nil =>
          right
          rw [List.nil_append] at h
          rw [← h] at h2
          exact h2
        | cons b t =>
          left
          rw [List.cons_append] at h
          injection h with h3 h4
          subst h3
          exact ⟨t, u, h4, h1, h2⟩
    · rename_i hnull
      rw [ih]
      constructor
      · rintro ⟨t, u, h, h1, h2⟩
        exact ⟨a :: t, u, by rw [h, List.cons_append], h1, h2⟩
      · rintro ⟨t, u, h, h1, h2⟩
        cases t with
        | nil => exact absurd h1 hnull
        | cons b t =>
          rw [List.cons_append] at h
          injection h with h3 h4
          subst h3
          exact ⟨t, u, h4, h1, h2⟩

theorem opt_reMatch_iff (r : RE) (w : List Char) :
    reMatch (RE.opt r) w = true ↔ w = [] ∨ reMatch r w = true := by
  rw [RE.opt, alt_reMatch_iff, eps_reMatch_iff]

theorem star_any_reMatch (w : List Char) : reMatch (.star .any) w = true := by
  induction w with
  | nil => rfl
  | cons a w ih =>
    rw [reMatch_cons]
    simp only [deriv]
    rw [seq_reMatch_iff]
    exact ⟨[], w, rfl, rfl, ih⟩

theorem star_nonSlash_reMatch_iff (w : List Char) :
    reMatch (.star .nonSlash) w = true ↔ '/' ∉ w := by
  induction w with
  | nil => simp [reMatch, nullable]
  | cons a w ih =>
    rw [reMatch_cons]
    by_cases ha : a = '/'
    · subst ha
      rw [show deriv (RE.star .nonSlash) '/' = RE.seq .emp (.star .nonSlash) from rfl]
      rw [seq_reMatch_iff]
      constructor
      · rintro ⟨t, u, h, h1, h2⟩
        rw [emp_reMatch] at h1
        exact absurd h1 (by simp)
      · intro h
        exact absurd (List.mem_cons_self _ _) h
    · simp only [deriv, if_neg ha]
      rw [seq_reMatch_iff]
      constructor
      · rintro ⟨t, u, h, h1, h2⟩
        rw [eps_reMatch_iff] at h1
        subst h1
        rw [List.nil_append] at h
        subst h
        rw [ih] at h2
        simp only [List.mem_cons, not_or]
        exact ⟨fun hh => ha hh.symm, h2⟩
      · intro h
        simp only [List.mem_cons, not_or] at h
        exact ⟨[], w, rfl, rfl, ih.mpr h.2⟩

/-- `[^/]+`, `.+` : one-or-more forms occurring in the generated patterns. -/
theorem seq_any_star_any_reMatch_iff (w : List Char) :
    reMatch (.seq .any (.star .any)) w = true ↔ w ≠ [] := by
  rw [seq_reMatch_iff]
  constructor
  · rintro ⟨t, u, h, h1, h2⟩
    rw [any_reMatch_iff] at h1
    obtain ⟨c, rfl⟩ := h1
    subst h
    simp
  · intro h
    cases w with
    | nil => exact absurd rfl h
    | cons a w =>
      exact ⟨[a], w, rfl, (any_reMatch_iff _).mpr ⟨a, rfl⟩, star_any_reMatch w⟩

theorem seq_nonSlash_star_reMatch_iff (w : List Char) :
    reMatch (.seq .nonSlash (.star .nonSlash)) w = true ↔ w ≠ [] ∧ '/' ∉ w := by
  rw [seq_reMatch_iff]
  constructor
  · rintro ⟨t, u, h, h1, h2⟩
    rw [nonSlash_reMatch_iff] at h1
    obtain ⟨c, hc, rfl⟩ := h1
    rw [star_nonSlash_reMatch_iff] at h2
    subst h
    simp only [List.cons_append, ne_eq, reduceCtorEq, not_false_eq_true, true_and,
      List.mem_cons, List.nil_append, not_or]
    exact ⟨fun hh => hc hh.symm, h2⟩
  · rintro ⟨h, h2⟩
    cases w with
    | nil => exact absurd rfl h
    | cons a w =>
      simp only [List.mem_cons, not_or] at h2
      exact ⟨[a], w, rfl, (nonSlash_reMatch_iff _).mpr ⟨a, fun hh => h2.1 hh.symm, rfl⟩,
        (star_nonSlash_reMatch_iff w).mpr h2.2⟩

/-- The tail `[^/]*/?` occurring in the generated patterns: a non-slash run followed by an
optional single `/`. -/
theorem starNonSlash_optSlash_reMatch_iff (w : List Char) :
    reMatch (.seq (.star .nonSlash) (RE.opt (.lit '/'))) w = true ↔
      ∃ t, '/' ∉ t ∧ (w = t ∨ w = t ++ ['/']) := by
  rw [seq_reMatch_iff]
  constructor
  · rintro ⟨t, u, h, h1, h2⟩
    rw [star_nonSlash_reMatch_iff] at h1
    rw [opt_reMatch_iff] at h2
    subst h
    rcases h2 with rfl | h2
    · exact ⟨t, h1, Or.inl (by simp)⟩
    · rw [lit_reMatch_iff] at h2
      subst h2
      exact ⟨t, h1, Or.inr rfl⟩
  · rintro ⟨t, ht, h | h⟩
    · subst h
      exact ⟨w, [], by simp, (star_nonSlash_reMatch_iff w).mpr ht,
        (opt_reMatch_iff _ _).mpr (Or.inl rfl)⟩
    · subst h
      exact ⟨t, ['/'], rfl, (star_nonSlash_reMatch_iff t).mpr ht,
        (opt_reMatch_iff _ _).mpr (Or.inr ((lit_reMatch_iff _ _).mpr rfl))⟩

/-! ## Concatenation of regular-expression fragments

The code builds each regular expression as a concatenation of fragments (one fragment per
glob token in variant A, one per path segment in variant B); `seqAll` is that concatenation
and `litSeq` the fragment for a run of escaped literal characters. -/

def seqAll : List RE → RE
  | [] => .eps
  | [r] => r
  | r :: rs => .seq r (seqAll rs)

def litSeq (cs : List Char) : RE := seqAll (cs.map RE.lit)

theorem seqAll_cons_reMatch_iff (r : RE) (rs : List RE) (w : List Char) :
    reMatch (seqAll (r :: rs)) w = true ↔
      ∃ t u, w = t ++ u ∧ reMatch r t = true ∧ reMatch (seqAll rs) u = true := by
  cases rs with
  | nil =>
    show reMatch r w = true ↔ _
    constructor
    · intro h
      exact ⟨w, [], by simp, h, rfl⟩
    · rintro ⟨t, u, h2, h3, h4⟩
      rw [show seqAll [] = RE.eps from rfl, eps_reMatch_iff] at h4
      subst h4
      rw [List.append_nil] at h2
      subst h2
      exact h3
  | cons r2 rs =>
    exact seq_reMatch_iff r (seqAll (r2 :: rs)) w

theorem seqAll_litPrefix_reMatch_iff (cs : List Char) (rs : List RE) (w : List Char) :
    reMatch (seqAll (cs.map RE.lit ++ rs)) w = true ↔
      ∃ u, w = cs ++ u ∧ reMatch (seqAll rs) u = true := by
  induction cs generalizing w with
  | nil =>
    simp only [List.map_nil, List.nil_append]
    constructor
    · intro h
      exact ⟨w, rfl, h⟩
    · rintro ⟨u, rfl, h⟩
      exact h
  | cons c cs ih =>
    rw [List.map_cons, List.cons_append, seqAll_cons_reMatch_iff]
    constructor
    · rintro ⟨t, u, h, h1, h2⟩
      rw [lit_reMatch_iff] at h1
      subst h1
      rw [ih] at h2
      obtain ⟨v, rfl, h3⟩ := h2
      exact ⟨v, by rw [h]; simp, h3⟩
    · rintro ⟨u, rfl, h⟩
      refine ⟨[c], cs ++ u, by simp, (lit_reMatch_iff c [c]).mpr rfl, ?_⟩
      rw [ih]
      exact ⟨u, rfl, h⟩

theorem litSeq_reMatch_iff (cs w : List Char) : reMatch (litSeq cs) w = true ↔ w = cs := by
  rw [litSeq, show cs.map RE.lit = cs.map RE.lit ++ [] from by simp,
    seqAll_litPrefix_reMatch_iff]
  constructor
  · rintro ⟨u, rfl, h⟩
    rw [show seqAll [] = RE.eps from rfl, eps_reMatch_iff] at h
    subst h
    simp
  · rintro rfl
    exact ⟨[], by simp, rfl⟩

theorem seq_lit_reMatch_iff (c : Char) (r : RE) (w : List Char) :
    reMatch (.seq (.lit c) r) w = true ↔ ∃ u, w = c :: u ∧ reMatch r u = true := by
  rw [seq_reMatch_iff]
  constructor
  · rintro ⟨t, u, h, h1, h2⟩
    rw [lit_reMatch_iff] at h1
    subst h1
    exact ⟨u, h, h2⟩
  · rintro ⟨u, rfl, h⟩
    exact ⟨[c], u, rfl, (lit_reMatch_iff c [c]).mpr rfl, h⟩

theorem seq_litSeq_reMatch_iff (cs : List Char) (r : RE) (w : List Char) :
    reMatch (.seq (litSeq cs) r) w = true ↔ ∃ u, w = cs ++ u ∧ reMatch r u = true := by
  rw [seq_reMatch_iff]
  constructor
  · rintro ⟨t, u, h, h1, h2⟩
    rw [litSeq_reMatch_iff] at h1
    subst h1
    exact ⟨u, h, h2⟩
  · rintro ⟨u, rfl, h⟩
    exact ⟨cs, u, rfl, (litSeq_reMatch_iff cs cs).mpr rfl, h⟩

/-! ## Data model

`MiddlewarePattern = string | RegExp`; a request is consumed only through
`new URL(request.url).pathname` and `request.method`, so it is modelled by those two
strings.  `MiddlewareMatcher` has the two optional fields `methods` and `patterns`
(`none` = field absent / undefined); `shouldRunMiddleware` receives
`middleware.unstable_settings?.matcher` as an `Option MiddlewareMatcher`
(`none` = no matcher anywhere in the chain). -/

inductive MiddlewarePattern where
  | str (s : String)
  | regex (r : RE)

structure Request where
  method : String
  pathname : String

structure MiddlewareMatcher where
  methods : Option (List String)
  patterns : Option (List MiddlewarePattern)

/-! ## Variant A: `globToRegex` by chained string replacement

The source builds a regex string from the whole pattern by four chained global replaces —
escape the regex metacharacters, rewrite `**` to the placeholder `___DOUBLE_STAR___`,
rewrite every remaining `*` to `[^/]*`, and finally restore every occurrence of the
placeholder text to `.*`.  The restore step is a plain textual replace, so a pattern whose
own text contains `___DOUBLE_STAR___` is rewritten as well.  The string pipeline is
modelled verbatim (`escapeA`, `replaceAll`, `regexStringA`); the produced regex string is
then denoted into `RE` by `tokenizeRegexA`. -/

/-- The character class of `.replace(/[.+?^$\x7b\x7d()|[\]\\]/g, '\\$&')`. -/
def escSpecialsA : List Char :=
  ['.', '+', '?', '^', '$', '\x7b', '\x7d', '(', ')', '|', '[', ']', '\\']

/-- The escaping replace: a backslash is inserted before every metacharacter. -/
def escapeA : List Char → List Char
  | [] => []
  | c :: rest => (if c ∈ escSpecialsA then ['\\', c] else [c]) ++ escapeA rest

/-- One left-to-right pass of a global replace of the literal text `p0 :: ps` by `repl`,
continuing after each replaced occurrence (non-overlapping), exactly as a JavaScript
global-regex replace of a literal pattern.  The fuel starts at the input length, which is
an upper bound on the number of steps (each step consumes at least one character). -/
def replaceAllGo (p0 : Char) (ps repl : List Char) : Nat → List Char → List Char
  | 0, cs => cs
  | _ + 1, [] => []
  | fuel + 1, c :: rest =>
    if (p0 :: ps).isPrefixOf (c :: rest) then
      repl ++ replaceAllGo p0 ps repl fuel (rest.drop ps.length)
    else
      c :: replaceAllGo p0 ps repl fuel rest

def replaceAll (pat repl cs : List Char) : List Char :=
  match pat with
  | [] => cs
  | p0 :: ps => replaceAllGo p0 ps repl cs.length cs

/-- The placeholder text `___DOUBLE_STAR___`. -/
def dstarPh : List Char := "___DOUBLE_STAR___".toList

/-- The four chained replaces of variant A's `globToRegex`, producing the regex string. -/
def regexStringA (pattern : String) : List Char :=
  let s1 := escapeA pattern.toList
  let s2 := replaceAll ['*', '*'] dstarPh s1
  let s3 := replaceAll ['*'] "[^/]*".toList s2
  replaceAll dstarPh ".*".toList s3

/-- Characters that are regex syntax when they appear bare (unescaped) in the generated
string; they have no `RE` denotation as literals.  (`.` and the multi-character forms
`\\c`, `[^/]`, `.*`, `[^/]*` are handled by their own tokenizer arms.) -/
def regexSpecialA : List Char :=
  ['*', '+', '?', '(', ')', '[', ']', '\x7b', '\x7d', '|', '^', '$', '\\']

/-- Denotes the regex string produced by the pipeline into `RE`: escaped literals,
`[^/]` and `.` with an optional `*` quantifier, and bare literal characters.  A bare
metacharacter (which the pipeline never produces) has no denotation. -/
def tokenizeRegexA : List Char → Option (List RE)
  | [] => some []
  | '\\' :: c :: rest =>
    match tokenizeRegexA rest with
    | some ts => some (RE.lit c :: ts)
    | none => none
  | '[' :: '^' :: '/' :: ']' :: '*' :: rest =>
    match tokenizeRegexA rest with
    | some ts => some (RE.star .nonSlash :: ts)
    | none => none
  | '[' :: '^' :: '/' :: ']' :: rest =>
    match tokenizeRegexA rest with
    | some ts => some (RE.nonSlash :: ts)
    | none => none
  | '.' :: '*' :: rest =>
    match tokenizeRegexA rest with
    | some ts => some (RE.star .any :: ts)
    | none => none
  | '.' :: rest =>
    match tokenizeRegexA rest with
    | some ts => some (RE.any :: ts)
    | none => none
  | c :: rest =>
    if c ∈ regexSpecialA then none
    else
      match tokenizeRegexA rest with
      | some ts => some (RE.lit c :: ts)
      | none => none

/-- Variant A `globToRegex`.  If the pattern ends with `/*` the code slices the last 6
characters off the generated regex string (`regexPattern.slice(0, -6)`, removing the
trailing `/[^/]*`) and appends `(?:/[^/]*)?`; the appended constant is represented by its
denotation `RE.opt (seq / [^/]*)`.  The result is `none` only when the generated string
falls outside the tokenized dialect (never for pipeline outputs). -/
def globToRegexA (pattern : String) : Option RE :=
  let s := regexStringA pattern
  match pattern.toList.reverse with
  | '*' :: '/' :: _ =>
    match tokenizeRegexA (s.take (s.length - 6)) with
    | some toks => some (seqAll (toks ++ [RE.opt (.seq (.lit '/') (.star .nonSlash))]))
    | none => none
  | _ =>
    match tokenizeRegexA s with
    | some toks => some (seqAll toks)
    | none => none

/-- Variant A `matchesPattern`: exact string equality first; then, only if the string
contains `*`, the compiled glob; a `RegExp` pattern is tested directly. -/
def matchesPatternA (pathname : String) (pattern : MiddlewarePattern) : Bool :=
  match pattern with
  | .str s =>
    if s = pathname then true
    else if s.toList.contains '*' then
      match globToRegexA s with
      | some r => reTest r pathname
      | none => false
    else false
  | .regex r => reTest r pathname

/-- Variant A `shouldRunMiddleware`: no matcher means run; a present `methods` field fails
on an empty list or a method not in the list (compared verbatim, no case normalization);
a present `patterns` field fails on an empty list and otherwise succeeds iff some pattern
matches the pathname. -/
def shouldRunMiddlewareA (request : Request) (matcher : Option MiddlewareMatcher) : Bool :=
  match matcher with
  | none => true
  | some m =>
    let methodsFail : Bool :=
      match m.methods with
      | some methods => methods.length == 0 || !(methods.contains request.method)
      | none => false
    if methodsFail then false
    else
      match m.patterns with
      | some patterns =>
        if patterns.length == 0 then false
        else patterns.any fun pat => matchesPatternA request.pathname pat
      | none => true

/-! ## Variant B: segment-based `globToRegex`

`pattern.slice(1).split('/')` is modelled by `splitOnSlash` on `pattern.toList.drop 1`.
Each segment is transformed separately; the per-segment regex fragments (strings in the
source) are represented by their `RE` denotations.  The source's `escapeRegex` escapes
every regex metacharacter except `*`, so an escaped character is simply a literal; in the
two branches that do *not* escape (`segment.endsWith('**')` leaves an inner `*` of the
prefix unescaped, and the `segment.includes('*')` branch escapes nothing), a character that
the regex engine would interpret as syntax has no `RE` denotation and the transform is
`none` (building the `RegExp` would throw or change meaning; no claim exercises this). -/

/-- `pattern.split('/')` on character lists (JavaScript semantics: `''` splits to `['']`). -/
def splitOnSlash : List Char → List (List Char)
  | [] => [[]]
  | '/' :: rest => [] :: splitOnSlash rest
  | c :: rest =>
    match splitOnSlash rest with
    | [] => [[c]]
    | seg :: segs => (c :: seg) :: segs

/-- Regex metacharacters that `escapeRegex` escapes (plus `-`-free; `*` is deliberately not
in the escaped set). -/
def regexMeta : List Char := ['.', '+', '?', '^', '$', '(', ')', '[', ']', '\x7b', '\x7d', '|', '\\']

/-- One character of `segment.replace(/\*[/]g, ...)` in the `includes('*')` branch:
`*` becomes `[^/]*/?`; any other character is passed through unescaped, so a
metacharacter would be regex syntax (not modelled), everything else is a literal. -/
def starSegChar (c : Char) : Option RE :=
  if c = '*' then some (.seq (.star .nonSlash) (RE.opt (.lit '/')))
  else if regexMeta.contains c then none
  else some (.lit c)

def starSegMap : List Char → Option (List RE)
  | [] => some []
  | c :: rest =>
    match starSegChar c, starSegMap rest with
    | some r, some rs => some (r :: rs)
    | _, _ => none

/-- Variant B per-segment transform, mirroring the four branches of the source:
`**` (positional), `*`, trailing `**` with a literal prefix, a segment containing `*`,
and the escaped literal fallback. -/
def transformSegmentB (isFirst isLast : Bool) (seg : List Char) : Option RE :=
  if seg = ['*', '*'] then
    if isFirst && isLast then some (.star .any)
    else if isFirst then some (.seq .any (.star .any))
    else some (RE.opt (.seq (.lit '/') (.star .any)))
  else if seg = ['*'] then
    some (.seq (.lit '/') (.seq .nonSlash (.star .nonSlash)))
  else
    match seg.reverse with
    | '*' :: '*' :: revPre =>
      let pre := revPre.reverse
      if pre.contains '*' then none
      else some (.seq (.lit '/') (.seq (litSeq pre) (.seq (.star .nonSlash) (RE.opt (.lit '/')))))
    | _ =>
      if seg.contains '*' then
        match starSegMap seg with
        | some rs => some (.seq (.lit '/') (seqAll rs))
        | none => none
      else some (.seq (.lit '/') (litSeq seg))

/-- `segments.map((segment, index) => ...)` with the `isFirst`/`isLast` flags. -/
def transformSegmentsB : Bool → List (List Char) → Option (List RE)
  | _, [] => some []
  | isFirst, [seg] =>
    match transformSegmentB isFirst true seg with
    | some r => some [r]
    | none => none
  | isFirst, seg :: segs =>
    match transformSegmentB isFirst false seg, transformSegmentsB false segs with
    | some r, some rs => some (r :: rs)
    | _, _ => none

/-- Variant B `globToRegex`: the pattern `/**` short-circuits to `^/.*$`; otherwise the
pattern minus its first character is split on `/`, every segment is transformed, and the
fragments are joined.  Every transform except the two first-position `**` forms (`.*`,
`.+`) yields a fragment starting with `/`, so the generated string starts with `/` exactly
when the first segment is not `**`; otherwise the code prepends `/`. -/
def globToRegexB (pattern : String) : Option RE :=
  if pattern = "/**" then some (.seq (.lit '/') (.star .any))
  else
    let segs := splitOnSlash (pattern.toList.drop 1)
    match transformSegmentsB true segs with
    | none => none
    | some ts =>
      if segs.head? = some ['*', '*'] then some (.seq (.lit '/') (seqAll ts))
      else some (seqAll ts)

/-- Variant B `matchesPattern` (same structure as variant A).  If the generated regex is
not modelled (`globToRegexB` returns `none`, where the source would build a malformed or
reinterpreted `RegExp`), the result is `false`; no claim depends on this case. -/
def matchesPatternB (pathname : String) (pattern : MiddlewarePattern) : Bool :=
  match pattern with
  | .str s =>
    if s = pathname then true
    else if s.toList.contains '*' then
      match globToRegexB s with
      | some r => reTest r pathname
      | none => false
    else false
  | .regex r => reTest r pathname

/-- `method.toUpperCase()` (ASCII; HTTP method tokens are ASCII). -/
def upperString (s : String) : String := String.mk (s.toList.map Char.toUpper)

/-- Variant B `shouldRunMiddleware`: as variant A, but the configured methods are mapped
through `toUpperCase()` before the membership test (the request's method is used
verbatim). -/
def shouldRunMiddlewareB (request : Request) (matcher : Option MiddlewareMatcher) : Bool :=
  match matcher with
  | none => true
  | some m =>
    let methodsFail : Bool :=
      match m.methods with
      | some methods =>
        let upper := methods.map upperString
        upper.length == 0 || !(upper.contains request.method)
      | none => false
    if methodsFail then false
    else
      match m.patterns with
      | some patterns =>
        if patterns.length == 0 then false
        else patterns.any fun pat => matchesPatternB request.pathname pat
      | none => true

/-! ## General helper lemmas -/

theorem toList_append (s t : String) : (s ++ t).toList = s.toList ++ t.toList :=
  String.data_append s t

theorem string_eq_iff_toList (s t : String) : s = t ↔ s.toList = t.toList :=
  ⟨fun h => h ▸ rfl, fun h => String.ext h⟩

theorem contains_eq_false_of_not_mem {cs : List Char} {c : Char} (h : c ∉ cs) :
    cs.contains c = false := by
  induction cs with
  | nil => rfl
  | cons a cs ih =>
    simp only [List.mem_cons, not_or] at h
    simp only [List.contains_cons, Bool.or_eq_false_iff]
    constructor
    · simp only [beq_eq_false_iff_ne, ne_eq]
      exact fun hh => h.1 hh
    · exact ih h.2

/-- Star-free string patterns are pure literal patterns for variant A: only the exact-match
branch of `matchesPattern` can succeed. -/
theorem matchesPatternA_starFree (s path : String) (h : '*' ∉ s.toList) :
    matchesPatternA path (.str s) = true ↔ s = path := by
  simp only [matchesPatternA]
  by_cases hq : s = path
  · rw [if_pos hq]
    simp [hq]
  · rw [if_neg hq, contains_eq_false_of_not_mem h]
    simp [hq]

/-- Star-free string patterns are pure literal patterns for variant B. -/
theorem matchesPatternB_starFree (s path : String) (h : '*' ∉ s.toList) :
    matchesPatternB path (.str s) = true ↔ s = path := by
  simp only [matchesPatternB]
  by_cases hq : s = path
  · rw [if_pos hq]
    simp [hq]
  · rw [if_neg hq, contains_eq_false_of_not_mem h]
    simp [hq]

/-! ## Claim theorems -/

/-- C2 counterexample: the method check is not fully case-insensitive, because neither
variant normalizes the *request's* method: the compiled variant uppercases only the
configured list, so `{methods: ['patch']}` rejects a request whose method is the
non-normalized token `patch` (the Fetch `Request` constructor uppercases only the six
standard methods, so `patch` is a reachable request method); and the first variant
normalizes nothing, so `{methods: ['get']}` rejects a `GET` request. -/
theorem shouldRunMiddleware_method_case_counterexample :
    shouldRunMiddlewareB ⟨"patch", "/"⟩ (some ⟨some ["patch"], none⟩) = false ∧
    shouldRunMiddlewareA ⟨"GET", "/"⟩ (some ⟨some ["get"], none⟩) = false := by
  refine ⟨by decide, by decide⟩

/-- C2 (amended): only the configured methods are normalized to uppercase (in the
compiled, segment-based variant); the request's method is compared verbatim.  The check
is therefore case-insensitive in the configured methods: `{methods: ['get']}` and
`{methods: ['GET']}` behave identically for every request and every patterns clause, and
a `GET` request (method already the normalized token `GET`) with matcher
`{methods: ['get']}` and no patterns clause runs the middleware. -/
theorem shouldRunMiddlewareB_method_case_insensitive :
    (∀ (request : Request) (pats : Option (List MiddlewarePattern)),
      shouldRunMiddlewareB request (some ⟨some ["get"], pats⟩) =
        shouldRunMiddlewareB request (some ⟨some ["GET"], pats⟩)) ∧
    (∀ pathname : String,
      shouldRunMiddlewareB ⟨"GET", pathname⟩ (some ⟨some ["get"], none⟩) = true) := by
  have h1 : ["get"].map upperString = ["GET"] := by decide
  have h2 : ["GET"].map upperString = ["GET"] := by decide
  constructor
  · intro request pats
    simp only [shouldRunMiddlewareB, h1, h2]
  · intro pathname
    simp only [shouldRunMiddlewareB, h1]
    rfl

/-- C3: for every request, both variants of `shouldRunMiddleware` return `true` when the
matcher is absent or present with neither field, and `false` when `methods` is an
explicitly empty list (whatever the patterns clause) or `patterns` is an explicitly empty
list (whatever the methods clause). -/
theorem shouldRunMiddleware_empty_clauses
    (request : Request) (ms : Option (List String)) (pats : Option (List MiddlewarePattern)) :
    shouldRunMiddlewareA request none = true ∧
    shouldRunMiddlewareB request none = true ∧
    shouldRunMiddlewareA request (some ⟨none, none⟩) = true ∧
    shouldRunMiddlewareB request (some ⟨none, none⟩) = true ∧
    shouldRunMiddlewareA request (some ⟨some [], pats⟩) = false ∧
    shouldRunMiddlewareB request (some ⟨some [], pats⟩) = false ∧
    shouldRunMiddlewareA request (some ⟨ms, some []⟩) = false ∧
    shouldRunMiddlewareB request (some ⟨ms, some []⟩) = false := by
  refine ⟨rfl, rfl, rfl, rfl, rfl, rfl, ?_, ?_⟩
  · simp only [shouldRunMiddlewareA]
    cases ms with
    | none => rfl
    | some l => split <;> rfl
  · simp only [shouldRunMiddlewareB]
    cases ms with
    | none => rfl
    | some l => split <;> rfl

/-- C4: the pattern `/**` matches every path (every URL pathname starts with `/`), in both
variants: variant A compiles it to `^/.*$` and variant B short-circuits to the same
regular expression. -/
theorem matchesPattern_slash_doublestar_all (rest : List Char) :
    matchesPatternA (String.mk ('/' :: rest)) (.str "/**") = true ∧
    matchesPatternB (String.mk ('/' :: rest)) (.str "/**") = true := by
  have hA : globToRegexA "/**" = some (.seq (.lit '/') (.star .any)) := by decide
  have hB : globToRegexB "/**" = some (.seq (.lit '/') (.star .any)) := by decide
  have hmatch : reTest (RE.seq (.lit '/') (.star .any)) (String.mk ('/' :: rest)) = true := by
    show reMatch _ ('/' :: rest) = true
    exact (seq_lit_reMatch_iff '/' _ _).mpr ⟨rest, rfl, star_any_reMatch rest⟩
  constructor
  · simp only [matchesPatternA]
    by_cases hq : "/**" = String.mk ('/' :: rest)
    · rw [if_pos hq]
    · rw [if_neg hq, if_pos (by decide), hA]
      exact hmatch
  · simp only [matchesPatternB]
    by_cases hq : "/**" = String.mk ('/' :: rest)
    · rw [if_pos hq]
    · rw [if_neg hq, if_pos (by decide), hB]
      exact hmatch

/-- C9: variant B's compiled forms of a trailing `**` segment and of a literal-prefix
`*`/`**` segment tolerate exactly one extra trailing `/` on the path:
`/api/` matches `/api/**`, `/api**` and `/api*`, while `/api/x` does not match
`/api*`. -/
theorem matchesPatternB_trailing_slash_tolerance :
    matchesPatternB "/api/" (.str "/api/**") = true ∧
    matchesPatternB "/api/" (.str "/api**") = true ∧
    matchesPatternB "/api/" (.str "/api*") = true ∧
    matchesPatternB "/api/x" (.str "/api*") = false := by
  refine ⟨by decide, by decide, by decide, by decide⟩

/-- C5 counterexample: a path with a further segment beneath the `api`-prefixed segment
does not match `/api**` in the segment-based `globToRegex` (the claim asserts it
matches). -/
theorem matchesPatternB_prefix_doublestar_no_descend :
    matchesPatternB "/apitest/x" (.str "/api**") = false := by decide

/-- C7 counterexample: in the segment-based `globToRegex`, the segment `a*b` does match
across a `/` boundary: the path `/a/b` matches the pattern `/a*b` (the claim asserts it
never does). -/
theorem matchesPatternB_star_crosses_boundary :
    matchesPatternB "/a/b" (.str "/a*b") = true := by decide

/-! ## Variant A: the trailing `/*` special case (C1)

For a star-free base `p` whose text does not contain the placeholder `___DOUBLE_STAR___`,
the pipeline leaves the escaped base untouched (the `**` and placeholder replaces are
no-ops, the single `*` of the trailing `/*` becomes `[^/]*`), and the slice/append turns
the trailing `/[^/]*` into the optional segment `(?:/[^/]*)?`.  A base containing the
placeholder text is rewritten to `.*` by the restore step (see the counterexample). -/

theorem mem_escapeA {c : Char} {cs : List Char} (h : c ∈ escapeA cs) : c = '\\' ∨ c ∈ cs := by
  induction cs with
  | nil => simp [escapeA] at h
  | cons d rest ih =>
    rw [escapeA] at h
    rcases List.mem_append.mp h with h1 | h1
    · by_cases hd : d ∈ escSpecialsA
      · rw [if_pos hd] at h1
        rcases List.mem_cons.mp h1 with rfl | h2
        · exact Or.inl rfl
        · simp only [List.mem_singleton] at h2
          exact Or.inr (h2 ▸ List.mem_cons_self _ _)
      · rw [if_neg hd] at h1
        simp only [List.mem_singleton] at h1
        exact Or.inr (h1 ▸ List.mem_cons_self _ _)
    · rcases ih h1 with h2 | h2
      · exact Or.inl h2
      · exact Or.inr (List.mem_cons_of_mem _ h2)

theorem escapeA_append (xs ys : List Char) :
    escapeA (xs ++ ys) = escapeA xs ++ escapeA ys := by
  induction xs with
  | nil => rfl
  | cons c xs ih => rw [List.cons_append, escapeA, escapeA, ih, List.append_assoc]

theorem star_not_mem_escapeA {cs : List Char} (h : '*' ∉ cs) : '*' ∉ escapeA cs := by
  intro hmem
  rcases mem_escapeA hmem with h1 | h1
  · exact absurd h1 (by decide)
  · exact h h1

theorem replaceAllGo_nil (p0 : Char) (ps repl : List Char) (fuel : Nat) :
    replaceAllGo p0 ps repl fuel [] = [] := by
  cases fuel <;> rfl

theorem isPrefixOf_doublestar_false {c : Char} (rest : List Char) (h : c ≠ '*') :
    (['*', '*'].isPrefixOf (c :: rest) : Bool) = false := by
  show (('*' == c) && (['*'].isPrefixOf rest)) = false
  rw [show ('*' == c) = false from beq_eq_false_iff_ne.mpr (fun hh => h hh.symm)]
  rfl

theorem isPrefixOf_singlestar_false {c : Char} (rest : List Char) (h : c ≠ '*') :
    (['*'].isPrefixOf (c :: rest) : Bool) = false := by
  show (('*' == c) && (List.isPrefixOf [] rest)) = false
  rw [show ('*' == c) = false from beq_eq_false_iff_ne.mpr (fun hh => h hh.symm)]
  rfl

/-- The `**` replace is the identity on a string whose only `*` is its final character. -/
theorem replaceAllGo_doublestar (repl cs : List Char) :
    ∀ fuel : Nat, '*' ∉ cs → cs.length + 1 ≤ fuel →
      replaceAllGo '*' ['*'] repl fuel (cs ++ ['*']) = cs ++ ['*'] := by
  induction cs with
  | nil =>
    intro fuel _ hf
    obtain ⟨f, rfl⟩ : ∃ f, fuel = f + 1 := ⟨fuel - 1, by omega⟩
    rw [List.nil_append, replaceAllGo, if_neg (by decide), replaceAllGo_nil]
  | cons c cs ih =>
    intro fuel hstar hf
    simp only [List.mem_cons, not_or] at hstar
    obtain ⟨f, rfl⟩ : ∃ f, fuel = f + 1 := ⟨fuel - 1, by omega⟩
    rw [List.cons_append, replaceAllGo,
      isPrefixOf_doublestar_false (cs ++ ['*']) (fun hh => hstar.1 hh.symm),
      if_neg (by simp),
      ih f hstar.2 (by simp only [List.length_cons] at hf; omega)]

/-- The single-`*` replace on a star-free string followed by one `*`. -/
theorem replaceAllGo_singlestar (repl cs : List Char) :
    ∀ fuel : Nat, '*' ∉ cs → cs.length + 1 ≤ fuel →
      replaceAllGo '*' [] repl fuel (cs ++ ['*']) = cs ++ repl := by
  induction cs with
  | nil =>
    intro fuel _ hf
    obtain ⟨f, rfl⟩ : ∃ f, fuel = f + 1 := ⟨fuel - 1, by omega⟩
    rw [List.nil_append, replaceAllGo, if_pos (by decide)]
    rw [show (([] : List Char).drop ([] : List Char).length) = [] from rfl, replaceAllGo_nil]
    simp
  | cons c cs ih =>
    intro fuel hstar hf
    simp only [List.mem_cons, not_or] at hstar
    obtain ⟨f, rfl⟩ : ∃ f, fuel = f + 1 := ⟨fuel - 1, by omega⟩
    rw [List.cons_append, replaceAllGo,
      isPrefixOf_singlestar_false (cs ++ ['*']) (fun hh => hstar.1 hh.symm),
      if_neg (by simp),
      ih f hstar.2 (by simp only [List.length_cons] at hf; omega)]
    rfl

/-- A global replace whose literal pattern does not occur in the input is the identity. -/
theorem replaceAllGo_no_infix (p0 : Char) (ps repl : List Char) :
    ∀ (cs : List Char) (fuel : Nat), cs.length ≤ fuel → ¬ (p0 :: ps) <:+: cs →
      replaceAllGo p0 ps repl fuel cs = cs := by
  intro cs
  induction cs with
  | nil => intro fuel _ _; exact replaceAllGo_nil _ _ _ _
  | cons c rest ih =>
    intro fuel hf hinf
    obtain ⟨f, rfl⟩ : ∃ f, fuel = f + 1 := ⟨fuel - 1, by simp at hf; omega⟩
    rw [replaceAllGo,
      if_neg (fun hcon => hinf (List.isPrefixOf_iff_prefix.mp hcon).isInfix),
      ih f (by simp at hf; omega) (fun hcon => hinf (List.infix_cons hcon))]

theorem replaceAll_no_infix (pat repl cs : List Char) (hne : pat ≠ [])
    (h : ¬ pat <:+: cs) : replaceAll pat repl cs = cs := by
  cases pat with
  | nil => exact absurd rfl hne
  | cons p0 ps =>
    rw [replaceAll]
    exact replaceAllGo_no_infix p0 ps repl cs cs.length (Nat.le_refl _) h

/-- A word with no escaped-metacharacter in it that is a prefix of an escaped string is a
prefix of the original string. -/
theorem no_special_prefix_lift (ph : List Char) (hspec : ∀ c ∈ ph, c ∉ escSpecialsA) :
    ∀ q : List Char, ph <+: escapeA q → ph <+: q := by
  induction ph with
  | nil => intro q _; exact List.nil_prefix
  | cons d ph2 ih =>
    intro q hpre
    cases q with
    | nil =>
      rw [show escapeA [] = [] from rfl, List.prefix_nil] at hpre
      simp at hpre
    | cons e q2 =>
      rw [escapeA] at hpre
      by_cases he : e ∈ escSpecialsA
      · rw [if_pos he] at hpre
        have hd : d = '\\' := (List.cons_prefix_cons.mp hpre).1
        exact absurd (by rw [hd]; decide) (hspec d (List.mem_cons_self _ _))
      · rw [if_neg he, List.singleton_append] at hpre
        obtain ⟨rfl, hpre2⟩ := List.cons_prefix_cons.mp hpre
        exact List.cons_prefix_cons.mpr
          ⟨rfl, ih (fun c hc => hspec c (List.mem_cons_of_mem _ hc)) q2 hpre2⟩

/-- A word with no escaped-metacharacter in it that occurs inside an escaped string occurs
inside the original string. -/
theorem no_special_infix_lift (ph : List Char) (hspec : ∀ c ∈ ph, c ∉ escSpecialsA) :
    ∀ q : List Char, ph <:+: escapeA q → ph <:+: q := by
  intro q
  induction q with
  | nil => intro h; exact h
  | cons e q2 ih =>
    intro hinf
    rw [escapeA] at hinf
    by_cases he : e ∈ escSpecialsA
    · rw [if_pos he] at hinf
      rcases List.infix_cons_iff.mp hinf with hpre | hinf2
      · cases ph with
        | nil => exact ⟨[], e :: q2, rfl⟩
        | cons d ph2 =>
          have hd : d = '\\' := (List.cons_prefix_cons.mp hpre).1
          exact absurd (by rw [hd]; decide) (hspec d (List.mem_cons_self _ _))
      · rcases List.infix_cons_iff.mp hinf2 with hpre | hinf3
        · cases ph with
          | nil => exact ⟨[], e :: q2, rfl⟩
          | cons d ph2 =>
            have hd : d = e := (List.cons_prefix_cons.mp hpre).1
            exact absurd (by rw [hd]; exact he) (hspec d (List.mem_cons_self _ _))
        · exact List.infix_cons (ih hinf3)
    · rw [if_neg he, List.singleton_append] at hinf
      rcases List.infix_cons_iff.mp hinf with hpre | hinf2
      · have hpre2 : ph <+: e :: q2 := by
          apply no_special_prefix_lift ph hspec (e :: q2)
          rw [escapeA, if_neg he, List.singleton_append]
          exact hpre
        exact hpre2.isInfix
      · exact List.infix_cons (ih hinf2)

/-- A word sharing no character with `tail` that is a prefix of `l ++ tail` is a prefix of
`l`. -/
theorem no_share_prefix_drop (tail : List Char) :
    ∀ (ph l : List Char), (∀ c ∈ tail, c ∉ ph) → ph <+: l ++ tail → ph <+: l := by
  intro ph
  induction ph with
  | nil => intro l _ _; exact List.nil_prefix
  | cons d ph2 ih =>
    intro l hsh hpre
    cases l with
    | nil =>
      rw [List.nil_append] at hpre
      exact absurd (List.mem_cons_self d ph2)
        (hsh d (hpre.subset (List.mem_cons_self _ _)))
    | cons e l2 =>
      rw [List.cons_append] at hpre
      obtain ⟨rfl, hpre2⟩ := List.cons_prefix_cons.mp hpre
      exact List.cons_prefix_cons.mpr
        ⟨rfl, ih l2 (fun c hc hc2 => hsh c hc (List.mem_cons_of_mem _ hc2)) hpre2⟩

/-- A word sharing no character with `tail` that occurs inside `l ++ tail` occurs inside
`l`. -/
theorem no_share_infix_drop (tail ph : List Char) (hsh : ∀ c ∈ tail, c ∉ ph) :
    ∀ l : List Char, ph <:+: l ++ tail → ph <:+: l := by
  intro l
  induction l with
  | nil =>
    intro hinf
    rw [List.nil_append] at hinf
    cases ph with
    | nil => exact ⟨[], [], rfl⟩
    | cons d ph2 =>
      exact absurd (List.mem_cons_self d ph2)
        (hsh d (hinf.subset (List.mem_cons_self _ _)))
  | cons e l2 ih =>
    intro hinf
    rw [List.cons_append] at hinf
    rcases List.infix_cons_iff.mp hinf with hpre | hinf2
    · exact (no_share_prefix_drop tail ph (e :: l2) hsh
        (by rw [List.cons_append]; exact hpre)).isInfix
    · exact List.infix_cons (ih hinf2)

theorem mem_regexSpecialA {c : Char} (h : c ∈ regexSpecialA) :
    c ∈ escSpecialsA ∨ c = '*' := by
  simp only [regexSpecialA, List.mem_cons, List.not_mem_nil, or_false] at h
  rcases h with rfl | rfl | rfl | rfl | rfl | rfl | rfl | rfl | rfl | rfl | rfl | rfl | rfl
  · exact Or.inr rfl
  all_goals exact Or.inl (by decide)

/-- The tokenizer denotes an escaped star-free string as the list of its literals. -/
theorem tokenizeRegexA_escaped (p : List Char) (hp : '*' ∉ p) :
    ∀ (rest : List Char) (ts : List RE), tokenizeRegexA rest = some ts →
      tokenizeRegexA (escapeA p ++ rest) = some (p.map RE.lit ++ ts) := by
  induction p with
  | nil =>
    intro rest ts h
    simpa using h
  | cons c p2 ih =>
    intro rest ts h
    simp only [List.mem_cons, not_or] at hp
    have hcstar : c ≠ '*' := fun hh => hp.1 hh.symm
    rw [escapeA, List.append_assoc]
    by_cases hc : c ∈ escSpecialsA
    · rw [if_pos hc]
      rw [show (['\\', c] ++ (escapeA p2 ++ rest)) = '\\' :: c :: (escapeA p2 ++ rest)
        from rfl]
      rw [show tokenizeRegexA ('\\' :: c :: (escapeA p2 ++ rest)) =
        (match tokenizeRegexA (escapeA p2 ++ rest) with
          | some ts2 => some (RE.lit c :: ts2)
          | none => none) from rfl]
      rw [ih hp.2 rest ts h]
      simp
    · rw [if_neg hc, List.singleton_append]
      have hnospec : c ∉ regexSpecialA := fun hmem => by
        rcases mem_regexSpecialA hmem with h1 | h1
        · exact hc h1
        · exact hcstar h1
      have hfall : tokenizeRegexA (c :: (escapeA p2 ++ rest)) =
          (match tokenizeRegexA (escapeA p2 ++ rest) with
            | some ts2 => some (RE.lit c :: ts2)
            | none => none) := by
        rw [tokenizeRegexA.eq_def]
        split
        · rename_i heq
          simp at heq
        · rename_i c2 rest2 heq
          injection heq with h1 h2
          exact absurd (by rw [h1]; decide) hc
        · rename_i rest2 heq
          injection heq with h1 h2
          exact absurd (by rw [h1]; decide) hc
        · rename_i rest2 heq
          injection heq with h1 h2
          exact absurd (by rw [h1]; decide) hc
        · rename_i rest2 heq
          injection heq with h1 h2
          exact absurd (by rw [h1]; decide) hc
        · rename_i rest2 heq
          injection heq with h1 h2
          exact absurd (by rw [h1]; decide) hc
        · rename_i c2 rest2 h3 h4 h5 h6 h7 heq
          injection heq with h1 h2
          subst h1
          subst h2
          rw [if_neg hnospec]
      rw [hfall, ih hp.2 rest ts h]
      simp

/-- C1 counterexample: the placeholder-restore collision.  The base
`/x___DOUBLE_STAR___y` is star-free, so its segments match a path only literally according
to the claim; but the compiler's final replace rewrites the literal text
`___DOUBLE_STAR___` to `.*`, so `/x___DOUBLE_STAR___y/*` compiles to
`^/x.*y(?:/[^/]*)?$` and matches the unrelated deeper path `/xa/b/cy` — the claim's
"nothing deeper" fails. -/
theorem matchesPatternA_placeholder_collision :
    matchesPatternA "/xa/b/cy" (.str "/x___DOUBLE_STAR___y/*") = true := by decide

/-- The optional trailing segment `(?:/[^/]*)?` appended in the `/*` special case. -/
theorem optSlashSegment_reMatch_iff (u : List Char) :
    reMatch (RE.opt (.seq (.lit '/') (.star .nonSlash))) u = true ↔
      u = [] ∨ ∃ seg, '/' ∉ seg ∧ u = '/' :: seg := by
  rw [opt_reMatch_iff]
  constructor
  · rintro (rfl | h)
    · exact Or.inl rfl
    · rw [seq_lit_reMatch_iff] at h
      obtain ⟨v, rfl, hv⟩ := h
      rw [star_nonSlash_reMatch_iff] at hv
      exact Or.inr ⟨v, hv, rfl⟩
  · rintro (rfl | ⟨seg, hseg, rfl⟩)
    · exact Or.inl rfl
    · exact Or.inr ((seq_lit_reMatch_iff _ _ _).mpr
        ⟨seg, rfl, (star_nonSlash_reMatch_iff seg).mpr hseg⟩)

/-- C1 (amended): in the variant whose `globToRegex` special-cases a trailing `/*`, for
every star-free base pattern `p` that does not contain the placeholder text
`___DOUBLE_STAR___`, the pattern `p ++ "/*"` matches exactly: the base path `p` itself, or
`p` followed by `/` and one more (possibly empty) segment — in particular `/api/*` matches
`/api` and `/api/users` but not `/api/users/1`.  (A base containing the placeholder text
is corrupted by the restore step; see `matchesPatternA_placeholder_collision`.) -/
theorem matchesPatternA_trailing_slash_star_iff (p path : String)
    (hp : '*' ∉ p.toList) (hph : ¬ dstarPh <:+: p.toList) :
    matchesPatternA path (.str (p ++ "/*")) = true ↔
      path = p ∨ ∃ seg : List Char, '/' ∉ seg ∧ path.toList = p.toList ++ '/' :: seg := by
  have htl : (p ++ "/*").toList = p.toList ++ ['/', '*'] := by
    rw [toList_append]; rfl
  have hrev : (p ++ "/*").toList.reverse = '*' :: '/' :: p.toList.reverse := by
    rw [htl, List.reverse_append]; rfl
  have hstar_esc : '*' ∉ escapeA p.toList := star_not_mem_escapeA hp
  have hstar_esc2 : '*' ∉ escapeA p.toList ++ ['/'] := by
    simp only [List.mem_append, not_or]
    exact ⟨hstar_esc, by decide⟩
  have hs1 : escapeA (p.toList ++ ['/', '*']) = (escapeA p.toList ++ ['/']) ++ ['*'] := by
    rw [escapeA_append, show escapeA ['/', '*'] = ['/', '*'] from rfl]
    simp
  have hs2 : replaceAll ['*', '*'] dstarPh ((escapeA p.toList ++ ['/']) ++ ['*']) =
      (escapeA p.toList ++ ['/']) ++ ['*'] := by
    rw [replaceAll]
    exact replaceAllGo_doublestar _ _ _ hstar_esc2 (by simp)
  have hs3 : replaceAll ['*'] "[^/]*".toList ((escapeA p.toList ++ ['/']) ++ ['*']) =
      escapeA p.toList ++ ('/' :: "[^/]*".toList) := by
    rw [replaceAll]
    rw [replaceAllGo_singlestar _ _ _ hstar_esc2 (by simp)]
    simp
  have hph_esc : ¬ dstarPh <:+: escapeA p.toList := fun hcon =>
    hph (no_special_infix_lift dstarPh (by decide) p.toList hcon)
  have hph_s3 : ¬ dstarPh <:+: escapeA p.toList ++ ('/' :: "[^/]*".toList) := fun hcon =>
    hph_esc (no_share_infix_drop _ dstarPh (by decide) _ hcon)
  have hs4 : replaceAll dstarPh ".*".toList
      (escapeA p.toList ++ ('/' :: "[^/]*".toList)) =
      escapeA p.toList ++ ('/' :: "[^/]*".toList) :=
    replaceAll_no_infix _ _ _ (by decide) hph_s3
  have hreg : regexStringA (p ++ "/*") = escapeA p.toList ++ ('/' :: "[^/]*".toList) := by
    rw [regexStringA, htl, hs1, hs2, hs3, hs4]
  have htoks : tokenizeRegexA (escapeA p.toList) = some (p.toList.map RE.lit) := by
    have h2 := tokenizeRegexA_escaped p.toList hp [] [] rfl
    simpa using h2
  have htake : (escapeA p.toList ++ ('/' :: "[^/]*".toList)).take
      ((escapeA p.toList ++ ('/' :: "[^/]*".toList)).length - 6) = escapeA p.toList := by
    rw [List.length_append, show ('/' :: "[^/]*".toList).length = 6 from rfl,
      Nat.add_sub_cancel]
    exact List.take_left _ _
  have hglob : globToRegexA (p ++ "/*") =
      some (seqAll (p.toList.map RE.lit ++
        [RE.opt (.seq (.lit '/') (.star .nonSlash))])) := by
    rw [globToRegexA, hrev]
    rw [hreg, htake, htoks]
    rfl
  simp only [matchesPatternA]
  by_cases hq : p ++ "/*" = path
  · rw [if_pos hq]
    constructor
    · intro _
      refine Or.inr ⟨['*'], by simp, ?_⟩
      rw [← hq, htl]
    · intro _
      rfl
  · rw [if_neg hq, if_pos (by rw [htl]; simp), hglob]
    show reMatch _ path.toList = true ↔ _
    rw [seqAll_litPrefix_reMatch_iff]
    constructor
    · rintro ⟨u, hu, h⟩
      rw [show seqAll [RE.opt (.seq (.lit '/') (.star .nonSlash))] =
        RE.opt (.seq (.lit '/') (.star .nonSlash)) from rfl,
        optSlashSegment_reMatch_iff] at h
      rcases h with rfl | ⟨seg, hseg, rfl⟩
      · left
        rw [string_eq_iff_toList, hu, List.append_nil]
      · exact Or.inr ⟨seg, hseg, hu⟩
    · rintro (rfl | ⟨seg, hseg, hu⟩)
      · exact ⟨[], by simp, (optSlashSegment_reMatch_iff []).mpr (Or.inl rfl)⟩
      · exact ⟨'/' :: seg, hu,
          (optSlashSegment_reMatch_iff _).mpr (Or.inr ⟨seg, hseg, rfl⟩)⟩

/-- C1 witness: instantiating the amended theorem at `p = "/api"` — `/api/*` matches
`/api`. -/
theorem matchesPatternA_trailing_slash_star_witness :
    matchesPatternA "/api" (.str ("/api" ++ "/*")) = true :=
  (matchesPatternA_trailing_slash_star_iff "/api" "/api" (by decide) (by decide)).mpr
    (Or.inl rfl)

/-! ## Variant B: concrete glob characterizations (C5, C6, C7) -/

/-- C5 (amended): in the segment-based `globToRegex`, the segment `api**` matches a single
path segment starting with `api`, optionally followed by one trailing `/`, but does not
continue into deeper segments: `/api**` matches `/apitest` and `/apitest/` but neither
`/apitest/x` nor `/api/users`. -/
theorem matchesPatternB_prefix_doublestar_iff (path : String) :
    matchesPatternB path (.str "/api**") = true ↔
      ∃ t : List Char, '/' ∉ t ∧
        (path.toList = "/api".toList ++ t ∨ path.toList = "/api".toList ++ t ++ ['/']) := by
  by_cases hq : "/api**" = path
  · simp only [matchesPatternB, if_pos hq]
    constructor
    · intro _
      exact ⟨['*', '*'], by decide, Or.inl (by rw [← hq]; rfl)⟩
    · intro _
      trivial
  · simp only [matchesPatternB, if_neg hq, if_pos (show "/api**".toList.contains '*' = true by decide)]
    rw [show globToRegexB "/api**" = some (.seq (.lit '/') (.seq (litSeq ['a', 'p', 'i'])
      (.seq (.star .nonSlash) (RE.opt (.lit '/'))))) from by decide]
    show reMatch _ path.toList = true ↔ _
    rw [seq_lit_reMatch_iff]
    constructor
    · rintro ⟨u, hu, h⟩
      rw [seq_litSeq_reMatch_iff] at h
      obtain ⟨v, rfl, h2⟩ := h
      rw [starNonSlash_optSlash_reMatch_iff] at h2
      obtain ⟨t, ht, h3 | h3⟩ := h2
      · exact ⟨t, ht, Or.inl (by rw [hu, h3]; rfl)⟩
      · exact ⟨t, ht, Or.inr (by rw [hu, h3]; simp)⟩
    · rintro ⟨t, ht, h | h⟩
      · refine ⟨'a' :: 'p' :: 'i' :: t, by rw [h]; rfl, ?_⟩
        rw [seq_litSeq_reMatch_iff]
        exact ⟨t, rfl, (starNonSlash_optSlash_reMatch_iff t).mpr ⟨t, ht, Or.inl rfl⟩⟩
      · refine ⟨'a' :: 'p' :: 'i' :: (t ++ ['/']), by rw [h]; simp, ?_⟩
        rw [seq_litSeq_reMatch_iff]
        exact ⟨t ++ ['/'], rfl,
          (starNonSlash_optSlash_reMatch_iff _).mpr ⟨t, ht, Or.inr rfl⟩⟩

/-- C6: in the segment-based `globToRegex`, a leading `**` followed by further segments
consumes one or more characters (so at least one non-empty run of intervening path
material) before the rest of the pattern: `/**/api` rejects `/api` and accepts `/x/api`
and `/a/b/api`; in general it accepts exactly the paths `/` ++ `s` ++ `/api` with `s`
non-empty. -/
theorem matchesPatternB_leading_doublestar_iff :
    matchesPatternB "/api" (.str "/**/api") = false ∧
    matchesPatternB "/x/api" (.str "/**/api") = true ∧
    matchesPatternB "/a/b/api" (.str "/**/api") = true ∧
    ∀ path : String,
      matchesPatternB path (.str "/**/api") = true ↔
        ∃ s : List Char, s ≠ [] ∧ path.toList = '/' :: (s ++ "/api".toList) := by
  refine ⟨by decide, by decide, by decide, ?_⟩
  intro path
  by_cases hq : "/**/api" = path
  · simp only [matchesPatternB, if_pos hq]
    constructor
    · intro _
      exact ⟨['*', '*'], by decide, by rw [← hq]; rfl⟩
    · intro _
      trivial
  · simp only [matchesPatternB, if_neg hq,
      if_pos (show "/**/api".toList.contains '*' = true by decide)]
    rw [show globToRegexB "/**/api" = some (.seq (.lit '/') (.seq (.seq .any (.star .any))
      (.seq (.lit '/') (litSeq ['a', 'p', 'i'])))) from by decide]
    show reMatch _ path.toList = true ↔ _
    rw [seq_lit_reMatch_iff]
    constructor
    · rintro ⟨u, hu, h⟩
      rw [seq_reMatch_iff] at h
      obtain ⟨s, v, rfl, h1, h2⟩ := h
      rw [seq_any_star_any_reMatch_iff] at h1
      rw [seq_lit_reMatch_iff] at h2
      obtain ⟨w2, rfl, h3⟩ := h2
      rw [litSeq_reMatch_iff] at h3
      subst h3
      exact ⟨s, h1, by rw [hu]; rfl⟩
    · rintro ⟨s, hs, h⟩
      refine ⟨s ++ "/api".toList, h, ?_⟩
      rw [seq_reMatch_iff]
      refine ⟨s, "/api".toList, rfl, (seq_any_star_any_reMatch_iff s).mpr hs, ?_⟩
      rw [seq_lit_reMatch_iff]
      exact ⟨['a', 'p', 'i'], rfl, (litSeq_reMatch_iff _ _).mpr rfl⟩

/-- C7 (amended): in the segment-based `globToRegex`, each `*` inside a segment with other
literal text compiles to a non-slash run followed by an *optional single `/`*, so the
segment may span one extra `/` boundary per `*` (but no more): `/a*b` matches `/ab`,
`/axb` and also `/a/b`, but not `/a/x/b`. -/
theorem matchesPatternB_inner_star_iff (path : String) :
    matchesPatternB path (.str "/a*b") = true ↔
      ∃ t : List Char, '/' ∉ t ∧
        (path.toList = '/' :: 'a' :: (t ++ ['b']) ∨
          path.toList = '/' :: 'a' :: (t ++ ['/', 'b'])) := by
  by_cases hq : "/a*b" = path
  · simp only [matchesPatternB, if_pos hq]
    constructor
    · intro _
      exact ⟨['*'], by decide, Or.inl (by rw [← hq]; rfl)⟩
    · intro _
      trivial
  · simp only [matchesPatternB, if_neg hq,
      if_pos (show "/a*b".toList.contains '*' = true by decide)]
    rw [show globToRegexB "/a*b" = some (.seq (.lit '/') (.seq (.lit 'a')
      (.seq (.seq (.star .nonSlash) (RE.opt (.lit '/'))) (.lit 'b')))) from by decide]
    show reMatch _ path.toList = true ↔ _
    rw [seq_lit_reMatch_iff]
    constructor
    · rintro ⟨u, hu, h⟩
      rw [seq_lit_reMatch_iff] at h
      obtain ⟨v, rfl, h2⟩ := h
      rw [seq_reMatch_iff] at h2
      obtain ⟨w1, w2, rfl, h3, h4⟩ := h2
      rw [starNonSlash_optSlash_reMatch_iff] at h3
      rw [lit_reMatch_iff] at h4
      subst h4
      obtain ⟨t, ht, h5 | h5⟩ := h3
      · exact ⟨t, ht, Or.inl (by rw [hu, h5])⟩
      · exact ⟨t, ht, Or.inr (by rw [hu, h5]; simp)⟩
    · rintro ⟨t, ht, h | h⟩
      · refine ⟨'a' :: (t ++ ['b']), by rw [h], ?_⟩
        rw [seq_lit_reMatch_iff]
        refine ⟨t ++ ['b'], rfl, ?_⟩
        rw [seq_reMatch_iff]
        exact ⟨t, ['b'], rfl, (starNonSlash_optSlash_reMatch_iff t).mpr ⟨t, ht, Or.inl rfl⟩,
          (lit_reMatch_iff _ _).mpr rfl⟩
      · refine ⟨'a' :: (t ++ ['/', 'b']), by rw [h], ?_⟩
        rw [seq_lit_reMatch_iff]
        refine ⟨t ++ ['/', 'b'], rfl, ?_⟩
        rw [seq_reMatch_iff]
        refine ⟨t ++ ['/'], ['b'], by simp, ?_, (lit_reMatch_iff _ _).mpr rfl⟩
        exact (starNonSlash_optSlash_reMatch_iff _).mpr ⟨t, ht, Or.inr rfl⟩

/-- C8 counterexample: a pattern with an *inner* star — hence with no trailing-wildcard
construct — can match a path differing from it only by a trailing `/` in the segment-based
variant: `/a*/` compiles to `^/a[^/]*/?/$`, whose generated `/?` absorbs the extra slash
of `/a*//`. -/
theorem matchesPatternB_inner_star_trailing_slash :
    matchesPatternB "/a*//" (.str "/a*/") = true := by decide

/-- C8 (amended): a pattern containing no wildcard at all never matches a path differing
from it only by a trailing `/`, in either variant (such patterns match only by exact
string equality): `p` rejects `p ++ "/"`, `p ++ "/"` rejects `p`, and `p ++ "/"` accepts
exactly itself. -/
theorem matchesPattern_trailing_slash_sensitive (p : String) (hp : '*' ∉ p.toList) :
    (matchesPatternA (p ++ "/") (.str p) = false ∧
      matchesPatternA p (.str (p ++ "/")) = false ∧
      matchesPatternA (p ++ "/") (.str (p ++ "/")) = true) ∧
    (matchesPatternB (p ++ "/") (.str p) = false ∧
      matchesPatternB p (.str (p ++ "/")) = false ∧
      matchesPatternB (p ++ "/") (.str (p ++ "/")) = true) := by
  have hps : '*' ∉ (p ++ "/").toList := by
    rw [toList_append]
    simp only [List.mem_append, not_or]
    exact ⟨hp, by decide⟩
  have hne : p ≠ p ++ "/" := by
    intro h
    have := congrArg String.toList h
    rw [toList_append] at this
    simp at this
  have hne2 : p ++ "/" ≠ p := fun h => hne h.symm
  refine ⟨⟨?_, ?_, ?_⟩, ⟨?_, ?_, ?_⟩⟩
  · rw [Bool.eq_false_iff]
    intro h
    exact hne ((matchesPatternA_starFree p (p ++ "/") hp).mp h)
  · rw [Bool.eq_false_iff]
    intro h
    exact hne2 ((matchesPatternA_starFree (p ++ "/") p hps).mp h)
  · exact (matchesPatternA_starFree (p ++ "/") (p ++ "/") hps).mpr rfl
  · rw [Bool.eq_false_iff]
    intro h
    exact hne ((matchesPatternB_starFree p (p ++ "/") hp).mp h)
  · rw [Bool.eq_false_iff]
    intro h
    exact hne2 ((matchesPatternB_starFree (p ++ "/") p hps).mp h)
  · exact (matchesPatternB_starFree (p ++ "/") (p ++ "/") hps).mpr rfl

/-- C8 witness: the theorem at `p = "/api"`. -/
theorem matchesPattern_trailing_slash_sensitive_witness :
    ('*' ∉ "/api".toList) ∧
      ((matchesPatternA ("/api" ++ "/") (.str "/api") = false ∧
        matchesPatternA "/api" (.str ("/api" ++ "/")) = false ∧
        matchesPatternA ("/api" ++ "/") (.str ("/api" ++ "/")) = true) ∧
      (matchesPatternB ("/api" ++ "/") (.str "/api") = false ∧
        matchesPatternB "/api" (.str ("/api" ++ "/")) = false ∧
        matchesPatternB ("/api" ++ "/") (.str ("/api" ++ "/")) = true)) :=
  ⟨by decide, matchesPattern_trailing_slash_sensitive "/api" (by decide)⟩

/-! ## Variant B: the dropped first character (C10)

`globToRegexB` applies `pattern.slice(1)` unconditionally, so a glob that does not start
with `/` compiles to the same regular expression as `'/' ++ (pattern minus its first
character)`.  The lemmas below establish (i) that equality of compiled forms, (ii) that a
compiled pattern always accepts `'/' ++ pattern.slice(1)` (self match), and (iii) that a
star-free pattern compiles to an exact literal matcher. -/

theorem splitOnSlash_ne_nil (cs : List Char) : splitOnSlash cs ≠ [] := by
  rw [splitOnSlash.eq_def]
  split
  · simp
  · simp
  · split <;> simp

theorem splitOnSlash_cons_ne {c : Char} (rest : List Char) (h : c ≠ '/') :
    splitOnSlash (c :: rest) =
      match splitOnSlash rest with
      | [] => [[c]]
      | seg :: segs => (c :: seg) :: segs := by
  rw [splitOnSlash.eq_def]
  split
  · simp_all
  · rename_i heq
    injection heq with h1 h2
    exact absurd h1 h
  · rename_i h1 h2 heq
    injection heq with h3 h4
    subst h3; subst h4; rfl

def joinSlash : List (List Char) → List Char
  | [] => []
  | [seg] => seg
  | seg :: segs => seg ++ '/' :: joinSlash segs

theorem joinSlash_cons_head (c : Char) (s : List Char) (ss : List (List Char)) :
    joinSlash ((c :: s) :: ss) = c :: joinSlash (s :: ss) := by
  cases ss with
  | nil => rfl
  | cons s2 ss => rfl

theorem joinSlash_splitOnSlash (cs : List Char) : joinSlash (splitOnSlash cs) = cs := by
  induction cs with
  | nil => rfl
  | cons c rest ih =>
    by_cases hc : c = '/'
    · subst hc
      rw [show splitOnSlash ('/' :: rest) = [] :: splitOnSlash rest from rfl]
      obtain ⟨s0, ss, hss⟩ := List.exists_cons_of_ne_nil (splitOnSlash_ne_nil rest)
      rw [hss]
      rw [show joinSlash ([] :: s0 :: ss) = [] ++ '/' :: joinSlash (s0 :: ss) from rfl]
      rw [← hss, ih]
      rfl
    · rw [splitOnSlash_cons_ne rest hc]
      obtain ⟨s0, ss, hss⟩ := List.exists_cons_of_ne_nil (splitOnSlash_ne_nil rest)
      rw [hss]
      rw [show (match s0 :: ss with
        | [] => [[c]]
        | seg :: segs => (c :: seg) :: segs) = (c :: s0) :: ss from rfl]
      rw [joinSlash_cons_head, ← hss, ih]

theorem mem_splitOnSlash_subset (cs : List Char) :
    ∀ s ∈ splitOnSlash cs, ∀ c ∈ s, c ∈ cs := by
  induction cs with
  | nil =>
    intro s hs c hc
    rw [show splitOnSlash [] = [[]] from rfl] at hs
    simp only [List.mem_singleton] at hs
    subst hs
    simp at hc
  | cons a rest ih =>
    intro s hs c hc
    by_cases ha : a = '/'
    · subst ha
      rw [show splitOnSlash ('/' :: rest) = [] :: splitOnSlash rest from rfl] at hs
      rcases List.mem_cons.mp hs with rfl | hs2
      · simp at hc
      · exact List.mem_cons_of_mem _ (ih s hs2 c hc)
    · rw [splitOnSlash_cons_ne rest ha] at hs
      obtain ⟨s0, ss, hss⟩ := List.exists_cons_of_ne_nil (splitOnSlash_ne_nil rest)
      rw [hss] at hs
      rw [show (match s0 :: ss with
        | [] => [[a]]
        | seg :: segs => (a :: seg) :: segs) = (a :: s0) :: ss from rfl] at hs
      rcases List.mem_cons.mp hs with rfl | hs2
      · rcases List.mem_cons.mp hc with rfl | hc2
        · exact List.mem_cons_self _ _
        · exact List.mem_cons_of_mem _ (ih s0 (by rw [hss]; exact List.mem_cons_self _ _) c hc2)
      · exact List.mem_cons_of_mem _ (ih s (by rw [hss]; exact List.mem_cons_of_mem _ hs2) c hc)

theorem cons_joinSlash_eq_flatten (segs : List (List Char)) (h : segs ≠ []) :
    '/' :: joinSlash segs = (segs.map (fun s => '/' :: s)).flatten := by
  induction segs with
  | nil => exact absurd rfl h
  | cons seg rest ih =>
    cases rest with
    | nil => simp [joinSlash]
    | cons s2 ss =>
      rw [show joinSlash (seg :: s2 :: ss) = seg ++ '/' :: joinSlash (s2 :: ss) from rfl]
      rw [List.map_cons, List.flatten_cons, ← ih (by simp)]
      simp

theorem starSegChar_selfMatch (c : Char) (r : RE) (h : starSegChar c = some r) :
    reMatch r [c] = true := by
  rw [starSegChar] at h
  split at h
  · rename_i hc
    subst hc
    injection h with h1
    subst h1
    exact (starNonSlash_optSlash_reMatch_iff _).mpr ⟨['*'], by decide, Or.inl rfl⟩
  · split at h
    · exact absurd h (by simp)
    · injection h with h1
      subst h1
      exact (lit_reMatch_iff _ _).mpr rfl

theorem starSegMap_selfMatch (seg : List Char) (rs : List RE) (h : starSegMap seg = some rs) :
    reMatch (seqAll rs) seg = true := by
  induction seg generalizing rs with
  | nil =>
    injection h with h1
    subst h1
    rfl
  | cons c rest ih =>
    rw [starSegMap] at h
    split at h
    · rename_i r1 rs1 hr1 hrs1
      injection h with h1
      subst h1
      rw [seqAll_cons_reMatch_iff]
      exact ⟨[c], rest, rfl, starSegChar_selfMatch c r1 hr1, ih rs1 hrs1⟩
    · exact absurd h (by simp)

/-- Every per-segment transform for a non-first segment (and, except for `**`, also for a
first segment) accepts `'/'` followed by the literal segment text. -/
theorem transformSegmentB_selfMatch (isLast : Bool) (seg : List Char) (r : RE)
    (h : transformSegmentB false isLast seg = some r) :
    reMatch r ('/' :: seg) = true := by
  by_cases h1 : seg = ['*', '*']
  · subst h1
    rw [show transformSegmentB false isLast ['*', '*'] =
      some (RE.opt (.seq (.lit '/') (.star .any))) from rfl] at h
    injection h with h2
    subst h2
    exact (opt_reMatch_iff _ _).mpr (Or.inr ((seq_lit_reMatch_iff _ _ _).mpr
      ⟨['*', '*'], rfl, star_any_reMatch _⟩))
  · by_cases h2 : seg = ['*']
    · subst h2
      rw [show transformSegmentB false isLast ['*'] =
        some (.seq (.lit '/') (.seq .nonSlash (.star .nonSlash))) from rfl] at h
      injection h with h3
      subst h3
      exact (seq_lit_reMatch_iff _ _ _).mpr
        ⟨['*'], rfl, (seq_nonSlash_star_reMatch_iff _).mpr ⟨by simp, by decide⟩⟩
    · rw [transformSegmentB, if_neg h1, if_neg h2] at h
      split at h
      · rename_i revPre heq
        have hseg : seg = revPre.reverse ++ ['*', '*'] := by
          have h3 := congrArg List.reverse heq
          simpa using h3
        dsimp only at h
        split at h
        · exact absurd h (by simp)
        · injection h with h3
          subst h3
          refine (seq_lit_reMatch_iff _ _ _).mpr ⟨revPre.reverse ++ ['*', '*'], by rw [hseg], ?_⟩
          rw [seq_litSeq_reMatch_iff]
          exact ⟨['*', '*'], rfl,
            (starNonSlash_optSlash_reMatch_iff _).mpr ⟨['*', '*'], by decide, Or.inl rfl⟩⟩
      · split at h
        · rename_i hstar
          split at h
          · rename_i rs hrs
            injection h with h3
            subst h3
            exact (seq_lit_reMatch_iff _ _ _).mpr ⟨seg, rfl, starSegMap_selfMatch seg rs hrs⟩
          · exact absurd h (by simp)
        · injection h with h3
          subst h3
          exact (seq_lit_reMatch_iff _ _ _).mpr ⟨seg, rfl, (litSeq_reMatch_iff _ _).mpr rfl⟩

/-- The `isFirst` flag only matters for a `**` segment. -/
theorem transformSegmentB_first_eq (f isLast : Bool) (seg : List Char) (h : seg ≠ ['*', '*']) :
    transformSegmentB f isLast seg = transformSegmentB false isLast seg := by
  rw [transformSegmentB, transformSegmentB, if_neg h, if_neg h]

theorem transformSegmentsB_selfMatch (segs : List (List Char)) (ts : List RE)
    (h : transformSegmentsB false segs = some ts) :
    reMatch (seqAll ts) ((segs.map (fun s => '/' :: s)).flatten) = true := by
  induction segs generalizing ts with
  | nil =>
    injection h with h1
    subst h1
    rfl
  | cons seg rest ih =>
    cases rest with
    | nil =>
      rw [show transformSegmentsB false [seg] =
        (match transformSegmentB false true seg with
          | some r => some [r]
          | none => none) from rfl] at h
      split at h
      · rename_i r hr
        injection h with h1
        subst h1
        simp only [List.map_cons, List.map_nil, List.flatten_cons, List.flatten_nil,
          List.append_nil]
        exact transformSegmentB_selfMatch true seg r hr
      · exact absurd h (by simp)
    | cons seg2 ss =>
      rw [show transformSegmentsB false (seg :: seg2 :: ss) =
        (match transformSegmentB false false seg, transformSegmentsB false (seg2 :: ss) with
          | some r, some rs => some (r :: rs)
          | _, _ => none) from rfl] at h
      split at h
      · rename_i r rs hr hrs
        injection h with h1
        subst h1
        rw [List.map_cons, List.flatten_cons, seqAll_cons_reMatch_iff]
        exact ⟨'/' :: seg, _, rfl, transformSegmentB_selfMatch false seg r hr, ih rs hrs⟩
      · exact absurd h (by simp)

/-- A star-free segment always takes the escaped-literal branch. -/
theorem transformSegmentB_starFree (f isLast : Bool) (seg : List Char) (h : '*' ∉ seg) :
    transformSegmentB f isLast seg = some (.seq (.lit '/') (litSeq seg)) := by
  have h1 : seg ≠ ['*', '*'] := by rintro rfl; simp at h
  have h2 : seg ≠ ['*'] := by rintro rfl; simp at h
  rw [transformSegmentB, if_neg h1, if_neg h2]
  split
  · rename_i revPre heq
    exfalso
    have : '*' ∈ seg.reverse := by rw [heq]; exact List.mem_cons_self _ _
    exact h (List.mem_reverse.mp this)
  · rw [contains_eq_false_of_not_mem h]
    simp

theorem transformSegmentsB_starFree (segs : List (List Char)) (h : ∀ s ∈ segs, '*' ∉ s) :
    ∀ f : Bool, transformSegmentsB f segs =
      some (segs.map (fun s => RE.seq (.lit '/') (litSeq s))) := by
  induction segs with
  | nil => intro f; rfl
  | cons seg rest ih =>
    intro f
    have hseg : '*' ∉ seg := h seg (List.mem_cons_self _ _)
    have hrest : ∀ s ∈ rest, '*' ∉ s := fun s hs => h s (List.mem_cons_of_mem _ hs)
    cases rest with
    | nil =>
      rw [show transformSegmentsB f [seg] =
        (match transformSegmentB f true seg with
          | some r => some [r]
          | none => none) from rfl]
      rw [transformSegmentB_starFree f true seg hseg]
      rfl
    | cons seg2 ss =>
      rw [show transformSegmentsB f (seg :: seg2 :: ss) =
        (match transformSegmentB f false seg, transformSegmentsB false (seg2 :: ss) with
          | some r, some rs => some (r :: rs)
          | _, _ => none) from rfl]
      rw [transformSegmentB_starFree f false seg hseg, ih hrest false]
      rfl

/-- The language of the fragment list of star-free segments: exactly the `/`-joined
literal text. -/
theorem litSegments_reMatch_iff (segs : List (List Char)) (w : List Char) :
    reMatch (seqAll (segs.map (fun s => RE.seq (.lit '/') (litSeq s)))) w = true ↔
      w = (segs.map (fun s => '/' :: s)).flatten := by
  induction segs generalizing w with
  | nil =>
    simp only [List.map_nil, List.flatten_nil]
    exact eps_reMatch_iff w
  | cons seg rest ih =>
    rw [List.map_cons, seqAll_cons_reMatch_iff]
    simp only [List.map_cons, List.flatten_cons]
    constructor
    · rintro ⟨t, u, rfl, h1, h2⟩
      rw [seq_lit_reMatch_iff] at h1
      obtain ⟨v, rfl, h3⟩ := h1
      rw [litSeq_reMatch_iff] at h3
      subst h3
      rw [ih] at h2
      rw [h2]
    · rintro rfl
      refine ⟨'/' :: seg, _, rfl, ?_, (ih _).mpr rfl⟩
      rw [seq_lit_reMatch_iff]
      exact ⟨seg, rfl, (litSeq_reMatch_iff _ _).mpr rfl⟩

/-- Self match: whenever `globToRegexB` produces a regular expression from `pattern`, that
regular expression accepts `'/' ++ pattern.slice(1)`. -/
theorem globToRegexB_selfMatch (p : String) (r : RE) (h : globToRegexB p = some r) :
    reMatch r ('/' :: p.toList.drop 1) = true := by
  rw [globToRegexB] at h
  split at h
  · rename_i hp
    subst hp
    injection h with h1
    subst h1
    exact (seq_lit_reMatch_iff _ _ _).mpr ⟨['*', '*'], rfl, star_any_reMatch _⟩
  · rename_i hp
    dsimp only at h
    obtain ⟨s0, ss, hss⟩ := List.exists_cons_of_ne_nil (splitOnSlash_ne_nil (p.toList.drop 1))
    rw [hss] at h
    have hword : '/' :: p.toList.drop 1 = ((s0 :: ss).map (fun s => '/' :: s)).flatten := by
      rw [← cons_joinSlash_eq_flatten _ (by simp), ← hss, joinSlash_splitOnSlash]
    split at h
    · exact absurd h (by simp)
    · rename_i ts hts
      split at h <;> rename_i hhead <;> injection h with h1 <;> subst h1
      · -- first segment is `**`: a `/` is prepended
        simp only [List.head?_cons, Option.some.injEq] at hhead
        subst hhead
        rw [hword]
        cases ss with
        | nil =>
          rw [show transformSegmentsB true [['*', '*']] = some [.star .any] from rfl] at hts
          injection hts with h2
          subst h2
          simp only [List.map_cons, List.map_nil, List.flatten_cons, List.flatten_nil,
            List.append_nil]
          exact (seq_lit_reMatch_iff _ _ _).mpr ⟨['*', '*'], rfl, star_any_reMatch _⟩
        | cons s2 ss2 =>
          rw [show transformSegmentsB true (['*', '*'] :: s2 :: ss2) =
            (match transformSegmentB true false ['*', '*'],
              transformSegmentsB false (s2 :: ss2) with
              | some r, some rs => some (r :: rs)
              | _, _ => none) from rfl] at hts
          rw [show transformSegmentB true false ['*', '*'] =
            some (.seq .any (.star .any)) from rfl] at hts
          split at hts
          · rename_i r2 rs2 hr2 hrs2
            injection hr2 with h2
            injection hts with h3
            subst h3
            rw [seq_lit_reMatch_iff]
            refine ⟨['*', '*'] ++ ((s2 :: ss2).map (fun s => '/' :: s)).flatten,
              by simp, ?_⟩
            rw [seqAll_cons_reMatch_iff]
            refine ⟨['*', '*'], _, rfl, ?_, ?_⟩
            · rw [← h2]
              exact (seq_any_star_any_reMatch_iff _).mpr (by simp)
            · exact transformSegmentsB_selfMatch _ _ hrs2
          · exact absurd hts (by simp)
      · -- first segment is not `**`: the fragment list already starts with `/`
        have hs0 : s0 ≠ ['*', '*'] := by
          intro hcon
          subst hcon
          simp at hhead
        rw [hword]
        cases ss with
        | nil =>
          rw [show transformSegmentsB true [s0] =
            (match transformSegmentB true true s0 with
              | some r => some [r]
              | none => none) from rfl] at hts
          rw [transformSegmentB_first_eq true true s0 hs0] at hts
          split at hts
          · rename_i r2 hr2
            injection hts with h2
            subst h2
            simp only [List.map_cons, List.map_nil, List.flatten_cons, List.flatten_nil,
              List.append_nil]
            exact transformSegmentB_selfMatch true s0 r2 hr2
          · exact absurd hts (by simp)
        | cons s2 ss2 =>
          rw [show transformSegmentsB true (s0 :: s2 :: ss2) =
            (match transformSegmentB true false s0, transformSegmentsB false (s2 :: ss2) with
              | some r, some rs => some (r :: rs)
              | _, _ => none) from rfl] at hts
          rw [transformSegmentB_first_eq true false s0 hs0] at hts
          split at hts
          · rename_i r2 rs2 hr2 hrs2
            injection hts with h2
            subst h2
            rw [List.map_cons, List.flatten_cons, seqAll_cons_reMatch_iff]
            exact ⟨'/' :: s0, _, rfl, transformSegmentB_selfMatch false s0 r2 hr2,
              transformSegmentsB_selfMatch _ _ hrs2⟩
          · exact absurd hts (by simp)

/-- A star-free pattern `'/' ++ cs` compiles (in variant B) to an exact matcher for
itself. -/
theorem globToRegexB_starFree_reMatch_iff (cs : List Char) (r : RE) (hstar : '*' ∉ cs)
    (h : globToRegexB (String.mk ('/' :: cs)) = some r) (w : List Char) :
    reMatch r w = true ↔ w = '/' :: cs := by
  have hsegs : ∀ s ∈ splitOnSlash cs, '*' ∉ s := by
    intro s hs hc
    exact hstar (mem_splitOnSlash_subset cs s hs '*' hc)
  have hne : String.mk ('/' :: cs) ≠ "/**" := by
    intro hcon
    have h2 := congrArg String.toList hcon
    have h3 : cs = ['*', '*'] := by
      have : '/' :: cs = ['/', '*', '*'] := h2
      injection this with h4 h5
    rw [h3] at hstar
    simp at hstar
  rw [globToRegexB, if_neg hne] at h
  dsimp only at h
  have hdrop : (String.mk ('/' :: cs)).toList.drop 1 = cs := rfl
  rw [hdrop] at h
  rw [transformSegmentsB_starFree _ hsegs true] at h
  dsimp only at h
  have hhead : (splitOnSlash cs).head? ≠ some ['*', '*'] := by
    intro hcon
    have hmem := List.mem_of_mem_head? hcon
    have := hsegs _ hmem
    simp at this
  rw [if_neg hhead] at h
  injection h with h1
  subst h1
  rw [litSegments_reMatch_iff]
  rw [← cons_joinSlash_eq_flatten _ (splitOnSlash_ne_nil cs), joinSlash_splitOnSlash]

/-- `pattern.slice(1)` ignores the first character: a glob not starting with `/` compiles
to the same regular expression as the glob with its first character replaced by `/`. -/
theorem globToRegexB_drop_first (p : String) (hhead : p.toList.head? ≠ some '/') :
    globToRegexB p = globToRegexB (String.mk ('/' :: p.toList.drop 1)) := by
  have hp : p ≠ "/**" := by
    intro h
    subst h
    exact hhead rfl
  by_cases hq : String.mk ('/' :: p.toList.drop 1) = "/**"
  · have hdrop : p.toList.drop 1 = ['*', '*'] := by
      have h2 := congrArg String.toList hq
      have h3 : '/' :: p.toList.drop 1 = ['/', '*', '*'] := h2
      injection h3 with h4 h5
    rw [hq]
    rw [globToRegexB, if_neg hp]
    dsimp only
    rw [hdrop]
    rfl
  · rw [globToRegexB, globToRegexB, if_neg hp, if_neg hq]
    rfl

/-- C10: variant B's glob compilation removes the pattern's first character before
splitting and re-anchors under a leading `/`; hence for every path and every compiling
glob `p` that does not start with `/` (contains `*`, differs from the path), matching `p`
is the same as matching `'/' ++ (p minus its first character)` — e.g. `api/*` is matched
exactly as `/pi/*` would be. -/
theorem matchesPatternB_drops_first_char (p path : String)
    (hhead : p.toList.head? ≠ some '/')
    (hstar : p.toList.contains '*' = true)
    (hne : p ≠ path)
    (hsome : (globToRegexB p).isSome = true) :
    matchesPatternB path (.str p) =
      matchesPatternB path (.str (String.mk ('/' :: p.toList.drop 1))) := by
  obtain ⟨r, hr⟩ := Option.isSome_iff_exists.mp hsome
  have hq : globToRegexB (String.mk ('/' :: p.toList.drop 1)) = some r := by
    rw [← globToRegexB_drop_first p hhead]
    exact hr
  have hL : matchesPatternB path (.str p) = reTest r path := by
    simp only [matchesPatternB, if_neg hne, hstar, if_pos, hr]
  by_cases hqp : String.mk ('/' :: p.toList.drop 1) = path
  · rw [hL]
    simp only [matchesPatternB, if_pos hqp]
    rw [← hqp]
    show reMatch r ('/' :: p.toList.drop 1) = true
    exact globToRegexB_selfMatch p r hr
  · by_cases hqstar : (String.mk ('/' :: p.toList.drop 1)).toList.contains '*' = true
    · have hR : matchesPatternB path (.str (String.mk ('/' :: p.toList.drop 1))) =
          reTest r path := by
        simp only [matchesPatternB, if_neg hqp, hqstar, if_pos, hq]
      rw [hL, hR]
    · have hR : matchesPatternB path (.str (String.mk ('/' :: p.toList.drop 1))) = false := by
        simp only [matchesPatternB, if_neg hqp, if_neg hqstar]
      rw [hL, hR]
      have hstarfree : '*' ∉ p.toList.drop 1 := by
        intro hmem
        exact hqstar (by
          show ('/' :: p.toList.drop 1).contains '*' = true
          simp only [List.contains_cons, Bool.or_eq_true]
          right
          exact (List.contains_iff_exists_mem_beq).mpr ⟨'*', hmem, by simp⟩)
      rw [Bool.eq_false_iff]
      intro hmatch
      apply hqp
      rw [string_eq_iff_toList]
      have := (globToRegexB_starFree_reMatch_iff (p.toList.drop 1) r hstarfree hq
        path.toList).mp hmatch
      rw [this]
      rfl

/-- C10 witness: the theorem at `p = "api/*"`, `path = "/pi/users"` — the glob `api/*` is
matched exactly as `/pi/*`. -/
theorem matchesPatternB_drops_first_char_witness :
    ("api/*".toList.head? ≠ some '/') ∧ ("api/*".toList.contains '*' = true) ∧
      ("api/*" ≠ "/pi/users") ∧ ((globToRegexB "api/*").isSome = true) ∧
      matchesPatternB "/pi/users" (.str "api/*") =
        matchesPatternB "/pi/users" (.str (String.mk ('/' :: "api/*".toList.drop 1))) :=
  ⟨by decide, by decide, by decide, by decide,
    matchesPatternB_drops_first_char "api/*" "/pi/users" (by decide) (by decide) (by decide)
      (by decide)⟩
